import Mathlib

/-!
Verification of the probability-tree demo (`Networkx/AplicacionProb/App.py`).

The program builds probability trees for coin flips (`crear_arbol_monedas`)
and for two dice rolls (`crear_arbol_dado`) on a `networkx.DiGraph`, and
`analizar_grafo` reports node/edge/leaf counts, the tree height (longest path
of the acyclic graph) and, for dice trees, the distribution of leaf sums.

Embedding choices:
* A `networkx.DiGraph` is a pair of association lists: nodes (key and
  attribute record, in insertion order, keys unique) and directed edges
  (source, target, label, in insertion order, (source, target) unique).
  `add_node`/`add_edge` replace the stored attributes when the key is already
  present, as networkx does; otherwise they append.
* Python floats are embedded as exact rationals `ℚ`.  Every probability the
  program computes is a product of the literals `0.5`, `1/6` and `1.0`, so
  statements about "1.0 within floating-point tolerance" become exact
  equalities of rationals.
* Python non-negative ints are `ℕ`; the flip-count parameter, which the
  spec also discusses for negative values, is `ℤ` in `generar_nodos`.
* `generar_nodos` in the source recurses with no structural bound: it
  terminates only when `nivel` reaches `num_lanzamientos`.  It is embedded
  with an explicit recursion-depth fuel returning `Option`: `none` models a
  recursion that exceeds the given depth, and a run that diverges in Python
  (negative `num_lanzamientos`) returns `none` for every fuel.
-/

/-- Attribute record of a networkx node as used by this program:
`prob` (float), `nivel` (int), and the optional dice-only `suma`. -/
structure NodeData where
  prob  : ℚ
  nivel : ℕ
  suma  : Option ℕ
deriving DecidableEq

/-- A directed graph: node list (key, attributes) and edge list
(source, target, label), both in insertion order. -/
structure Grafo where
  nodes : List (String × NodeData)
  edges : List (String × String × String)
deriving DecidableEq

/-- `nx.DiGraph()`: the empty directed graph. -/
def Grafo.vacio : Grafo := ⟨[], []⟩

/-- `G.add_node(k, **d)`: replace the attributes if `k` is present,
otherwise append the node. -/
def add_node (G : Grafo) (k : String) (d : NodeData) : Grafo :=
  if G.nodes.any (fun e => e.1 == k) then
    { G with nodes := G.nodes.map (fun e => if e.1 == k then (k, d) else e) }
  else
    { G with nodes := G.nodes ++ [(k, d)] }

/-- `G.add_edge(u, v, label=lbl)`: replace the label if the edge `(u, v)` is
present, otherwise append the edge.  (networkx would also insert missing
endpoints; both builders only ever connect nodes they have already added.) -/
def add_edge (G : Grafo) (u v lbl : String) : Grafo :=
  if G.edges.any (fun e => e.1 == u && e.2.1 == v) then
    { G with edges := G.edges.map (fun e => if e.1 == u && e.2.1 == v then (u, v, lbl) else e) }
  else
    { G with edges := G.edges ++ [(u, v, lbl)] }

/-- `G.nodes()`: the node keys in insertion order. -/
def Grafo.keys (G : Grafo) : List String := G.nodes.map (fun e => e.1)

/-- `G.out_degree(u)`: number of edges leaving `u`. -/
def out_degree (G : Grafo) (u : String) : ℕ :=
  (G.edges.filter (fun e => e.1 == u)).length

/-- `G.in_degree(u)`: number of edges entering `u`. -/
def in_degree (G : Grafo) (u : String) : ℕ :=
  (G.edges.filter (fun e => e.2.1 == u)).length

/-- `G.nodes[u]`: attribute lookup.  Both builders only look up keys that are
present; the default record is never reached in the program's runs. -/
def nodeData (G : Grafo) (u : String) : NodeData :=
  ((G.nodes.find? (fun e => e.1 == u)).map (fun e => e.2)).getD ⟨0, 0, none⟩

/-- The recursive helper of `crear_arbol_monedas`.  First argument after the
flip count is the recursion-depth fuel; `none` models a recursion deeper than
the fuel (in particular, the infinite recursion on negative flip counts).
The body is the literal translation of `generar_nodos` in the source:
stop when `nivel == num_lanzamientos`, otherwise add the "C" child with half
the probability, recurse below it, then add the "S" child and recurse. -/
def generar_nodos (num_lanzamientos : ℤ) :
    ℕ → ℕ → String → ℚ → Grafo → Option Grafo
  | 0, _, _, _, _ => none
  | fuel + 1, nivel, resultado_actual, probabilidad_actual, G =>
    if (nivel : ℤ) = num_lanzamientos then some G
    else
      let nuevo_resultado_cara := resultado_actual ++ "C"
      let nueva_prob_cara := probabilidad_actual * 0.5
      let G1 := add_node G nuevo_resultado_cara ⟨nueva_prob_cara, nivel + 1, none⟩
      let G2 := add_edge G1 resultado_actual nuevo_resultado_cara "C (0.5)"
      match generar_nodos num_lanzamientos fuel (nivel + 1)
          nuevo_resultado_cara nueva_prob_cara G2 with
      | none => none
      | some G3 =>
        let nuevo_resultado_sello := resultado_actual ++ "S"
        let nueva_prob_sello := probabilidad_actual * 0.5
        let G4 := add_node G3 nuevo_resultado_sello ⟨nueva_prob_sello, nivel + 1, none⟩
        let G5 := add_edge G4 resultado_actual nuevo_resultado_sello "S (0.5)"
        generar_nodos num_lanzamientos fuel (nivel + 1)
          nuevo_resultado_sello nueva_prob_sello G5

/-- `crear_arbol_monedas(num_lanzamientos)`: root node `"Inicio"` with
probability `1.0` and level `0`, then the recursive generation from level 0.
The recursion visits levels `0..num_lanzamientos`, so depth fuel
`num_lanzamientos + 1` always suffices (`crear_arbol_monedas_eq` below
proves the `getD` default is never taken). -/
def crear_arbol_monedas (num_lanzamientos : ℕ) : Grafo :=
  let G0 := add_node Grafo.vacio "Inicio" ⟨1.0, 0, none⟩
  (generar_nodos (num_lanzamientos : ℤ) (num_lanzamientos + 1) 0 "Inicio" 1.0 G0).getD G0

/-- `crear_arbol_dado()`: root, six level-1 nodes `"1".."6"` with probability
`1/6`, and for each a row of six level-2 leaves `"i,j"` with probability
`(1/6)*(1/6)` and attribute `suma = i + j`. -/
def crear_arbol_dado : Grafo :=
  let G := add_node Grafo.vacio "Inicio" ⟨1.0, 0, none⟩
  (List.range' 1 6).foldl (fun G i =>
    let nodo1 := toString i
    let G := add_node G nodo1 ⟨1/6, 1, none⟩
    let G := add_edge G "Inicio" nodo1 (toString i ++ " (1/6)")
    (List.range' 1 6).foldl (fun G j =>
      let nodo2 := toString i ++ "," ++ toString j
      let prob_final : ℚ := (1/6) * (1/6)
      let G := add_node G nodo2 ⟨prob_final, 2, some (i + j)⟩
      add_edge G nodo1 nodo2 (toString j ++ " (1/6)")) G) G

/-- Successors of `u`: targets of the edges leaving `u`, in edge order. -/
def sucesores (G : Grafo) (u : String) : List String :=
  (G.edges.filter (fun e => e.1 == u)).map (fun e => e.2.1)

/-- `alcanzaEn G fuel u v`: there is a directed walk from `u` to `v` of
length between 1 and `fuel`. -/
def alcanzaEn (G : Grafo) : ℕ → String → String → Bool
  | 0, _, _ => false
  | fuel + 1, u, v =>
    (sucesores G u).any (fun w => w == v || alcanzaEn G fuel w v)

/-- `nx.is_directed_acyclic_graph(G)`.  A finite digraph has a directed cycle
iff some node reaches itself by a walk of length between 1 and the number of
nodes, which is what `alcanzaEn` with fuel `G.nodes.length` detects. -/
def is_directed_acyclic_graph (G : Grafo) : Bool :=
  !(G.keys.any (fun u => alcanzaEn G G.nodes.length u u))

/-- Length (in edges) of the longest directed path starting at `u`, among
paths of at most `fuel` edges. -/
def longestFrom (G : Grafo) : ℕ → String → ℕ
  | 0, _ => 0
  | fuel + 1, u =>
    ((sucesores G u).map (fun v => longestFrom G fuel v + 1)).foldr max 0

/-- `nx.dag_longest_path_length(G)`: length of the longest directed path.
On an acyclic graph every path has fewer edges than there are nodes, so fuel
`G.nodes.length` computes the exact longest-path length. -/
def dag_longest_path_length (G : Grafo) : ℕ :=
  (G.keys.map (longestFrom G G.nodes.length)).foldr max 0

/-- The report printed by `analizar_grafo`: node and edge totals, the leaf
list, the height (printed only when the graph is acyclic), and for dice trees
the distribution `suma ↦ (count, count / number of leaves)` in ascending
order of `suma`. -/
structure Informe where
  nodos   : ℕ
  aristas : ℕ
  hojas   : List String
  altura  : Option ℕ
  sumas   : Option (List (ℕ × ℕ × ℚ))
deriving DecidableEq

/-- One step of the `sumas` dictionary update in `analizar_grafo`:
`sumas[suma] += 1` after initialising a missing key to 0 (Python dicts keep
first-insertion order). -/
def actualizar_sumas (d : List (ℕ × ℕ)) (s : ℕ) : List (ℕ × ℕ) :=
  if d.any (fun e => e.1 == s) then
    d.map (fun e => if e.1 == s then (e.1, e.2 + 1) else e)
  else
    d ++ [(s, 1)]

/-- Insert one dictionary entry into a key-sorted list (helper of `ordenar`). -/
def insertar (x : ℕ × ℕ) : List (ℕ × ℕ) → List (ℕ × ℕ)
  | [] => [x]
  | y :: ys => if x.1 ≤ y.1 then x :: y :: ys else y :: insertar x ys

/-- `sorted(sumas.keys())` with the counts carried along: insertion sort of
the dictionary by key (the keys are distinct, so stability is irrelevant). -/
def ordenar : List (ℕ × ℕ) → List (ℕ × ℕ)
  | [] => []
  | x :: xs => insertar x (ordenar xs)

/-- `analizar_grafo(G, tipo)`: leaves are nodes of out-degree 0; the height
is computed (and printed) only when the graph is acyclic; when
`tipo == "dado"` the leaves' `suma` attributes — `G.nodes[node].get('suma', 0)`,
so a missing attribute is read as 0 — are tallied into a dictionary which is
reported in ascending key order with empirical probability
`count / len(hojas)`. -/
def analizar_grafo (G : Grafo) (tipo : String) : Informe :=
  let hojas := G.keys.filter (fun n => out_degree G n == 0)
  let altura := if is_directed_acyclic_graph G then some (dag_longest_path_length G) else none
  let sumas :=
    if tipo == "dado" then
      let dict := hojas.foldl (fun d node => actualizar_sumas d ((nodeData G node).suma.getD 0)) []
      some ((ordenar dict).map (fun e => (e.1, e.2, (e.2 : ℚ) / (hojas.length : ℚ))))
    else none
  ⟨G.nodes.length, G.edges.length, hojas, altura, sumas⟩

/-- Sum of the probabilities stored on the leaves (out-degree-0 nodes) of a
graph; the quantity the spec's testable properties constrain. -/
def suma_prob_hojas (G : Grafo) : ℚ :=
  ((G.nodes.filter (fun e => out_degree G e.1 == 0)).map (fun e => e.2.prob)).sum

/-- Modelled from the spec: "height equals the maximum depth attribute over
all nodes" — the cheap height computation the spec proposes as equivalent to
the analyzer's longest-path search. -/
def altura_por_niveles (G : Grafo) : ℕ :=
  (G.nodes.map (fun e => e.2.nivel)).foldr max 0

/-- Left-to-right non-overlapping replacement, the semantics of Python's
`str.replace` for a non-empty pattern (the menu only uses pattern
`"Inicio"`).  The fuel, instantiated with the length of the scanned list,
bounds the number of scanning steps and always suffices. -/
def str_replace_go (pat rep : List Char) : ℕ → List Char → List Char
  | _, [] => []
  | 0, s => s
  | fuel + 1, c :: cs =>
    if pat.isPrefixOf (c :: cs) then
      rep ++ str_replace_go pat rep fuel (cs.drop (pat.length - 1))
    else
      c :: str_replace_go pat rep fuel cs

/-- `s.replace(pat, rep)` on strings. -/
def str_replace (s pat rep : String) : String :=
  ⟨str_replace_go pat.data rep.data s.data.length s.data⟩

/-- Closed form of the node list that `generar_nodos` appends when called at
level `nivel` with accumulated label `res` and probability `p`, for a run
with `k` levels still to generate: the "C" child, its subtree, the "S"
child, its subtree. -/
def coinNodes : ℕ → ℕ → String → ℚ → List (String × NodeData)
  | 0, _, _, _ => []
  | k + 1, nivel, res, p =>
    (res ++ "C", ⟨p * 0.5, nivel + 1, none⟩)
        :: coinNodes k (nivel + 1) (res ++ "C") (p * 0.5)
      ++ ((res ++ "S", ⟨p * 0.5, nivel + 1, none⟩)
        :: coinNodes k (nivel + 1) (res ++ "S") (p * 0.5))

/-- Closed form of the edge list that `generar_nodos` appends below label
`res` with `k` levels still to generate. -/
def coinEdges : ℕ → String → List (String × String × String)
  | 0, _ => []
  | k + 1, res =>
    (res, res ++ "C", "C (0.5)") :: coinEdges k (res ++ "C")
      ++ ((res, res ++ "S", "S (0.5)") :: coinEdges k (res ++ "S"))

/-- Freshness of the label `res` for the graph `G`: no strict extension of
`res` is a node key or an edge target of `G`.  This is the precondition
under which `generar_nodos` only appends (never overwrites). -/
def Fresh (G : Grafo) (res : String) : Prop :=
  (∀ w : String, w ≠ "" → res ++ w ∉ G.keys) ∧
    (∀ w : String, w ≠ "" → ∀ e ∈ G.edges, e.2.1 ≠ res ++ w)

/-! ### Generic helper lemmas: strings, association-list updates -/

lemma str_data_ne {a b : String} (h : a.data ≠ b.data) : a ≠ b :=
  fun hab => h (congrArg String.data hab)

lemma str_append_cancel {res a b : String} (h : res ++ a = res ++ b) : a = b := by
  have hd : res.data ++ a.data = res.data ++ b.data := by
    have := congrArg String.data h
    simpa [String.data_append] using this
  exact String.ext (List.append_cancel_left hd)

lemma str_ne_empty_iff {w : String} : w ≠ "" ↔ w.data ≠ [] := by
  constructor
  · intro h hd
    exact h (String.ext (by simpa using hd))
  · intro h hw
    exact h (by simp [hw])

lemma str_length_pos {w : String} (h : w ≠ "") : 0 < w.length := by
  have hd := str_ne_empty_iff.mp h
  have : w.data.length ≠ 0 := fun hl => hd (List.length_eq_zero.mp hl)
  exact Nat.pos_of_ne_zero this

lemma str_append_ne_self {res w : String} (hw : w ≠ "") : res ++ w ≠ res := by
  intro h
  have : (res ++ w).length = res.length := congrArg String.length h
  rw [String.length_append] at this
  have := str_length_pos hw
  omega

lemma str_C_ne_S_append (w w' : String) : ("C" ++ w : String) ≠ "S" ++ w' := by
  intro h
  have hd := congrArg String.data h
  rw [String.data_append, String.data_append] at hd
  simp [show ("C" : String).data = ['C'] from rfl,
    show ("S" : String).data = ['S'] from rfl] at hd

lemma add_node_of_not_mem {G : Grafo} {k : String} (h : k ∉ G.keys) (d : NodeData) :
    add_node G k d = ⟨G.nodes ++ [(k, d)], G.edges⟩ := by
  have hany : G.nodes.any (fun e => e.1 == k) = false := by
    rw [List.any_eq_false]
    intro x hx hxk
    exact h (List.mem_map.mpr ⟨x, hx, (beq_iff_eq.mp hxk)⟩)
  simp [add_node, hany]

lemma add_edge_of_not_tgt (G : Grafo) {v : String}
    (h : ∀ e ∈ G.edges, e.2.1 ≠ v) (u lbl : String) :
    add_edge G u v lbl = ⟨G.nodes, G.edges ++ [(u, v, lbl)]⟩ := by
  have hany : G.edges.any (fun e => e.1 == u && e.2.1 == v) = false := by
    rw [List.any_eq_false]
    intro e he hev
    simp only [Bool.and_eq_true, beq_iff_eq] at hev
    exact h e he hev.2
  simp [add_edge, hany]

/-! ### Claim C3: behaviour of `generar_nodos` on negative and non-negative
flip counts -/

lemma generar_nodos_neg {num : ℤ} (hnum : num < 0) :
    ∀ fuel nivel res p G, generar_nodos num fuel nivel res p G = none := by
  intro fuel
  induction fuel with
  | zero => intro nivel res p G; rfl
  | succ f ih =>
    intro nivel res p G
    have hne : ¬((nivel : ℤ) = num) := by
      intro h
      omega
    simp only [generar_nodos, if_neg hne, ih]

lemma generar_nodos_isSome {num : ℤ} :
    ∀ (fuel nivel : ℕ) (res : String) (p : ℚ) (G : Grafo),
      (nivel : ℤ) ≤ num → num < (nivel : ℤ) + (fuel : ℤ) →
      (generar_nodos num fuel nivel res p G).isSome = true := by
  intro fuel
  induction fuel with
  | zero =>
    intro nivel res p G h1 h2
    omega
  | succ f ih =>
    intro nivel res p G h1 h2
    by_cases hg : (nivel : ℤ) = num
    · simp [generar_nodos, hg]
    · have h1' : ((nivel + 1 : ℕ) : ℤ) ≤ num := by push_cast; omega
      have h2' : num < ((nivel + 1 : ℕ) : ℤ) + (f : ℤ) := by push_cast at h2 ⊢; omega
      simp only [generar_nodos, if_neg hg]
      rcases hc : generar_nodos num f (nivel + 1) (res ++ "C") (p * 0.5)
          (add_edge (add_node G (res ++ "C") ⟨p * 0.5, nivel + 1, none⟩)
            res (res ++ "C") "C (0.5)") with _ | G3
      · have := ih (nivel + 1) (res ++ "C") (p * 0.5)
          (add_edge (add_node G (res ++ "C") ⟨p * 0.5, nivel + 1, none⟩)
            res (res ++ "C") "C (0.5)") h1' h2'
        rw [hc] at this
        simp at this
      · exact ih (nivel + 1) (res ++ "S") (p * 0.5) _ h1' h2'

set_option maxRecDepth 40000

/-- Claim C3 (code bug): on the negative flip count `-1` the recursive
builder does not signal an invalid-argument condition — the recursion never
reaches its stopping level and exhausts every recursion-depth bound, the
embedding of the Python code's unbounded recursion (which dies with a
`RecursionError`); on every non-negative flip count the recursion completes
within depth `n + 1`. -/
theorem c3_negativo_diverge :
    (∀ (fuel nivel : ℕ) (res : String) (p : ℚ) (G : Grafo),
      generar_nodos (-1) fuel nivel res p G = none) ∧
    (∀ n : ℕ, (generar_nodos (n : ℤ) (n + 1) 0 "Inicio" 1.0
        (add_node Grafo.vacio "Inicio" ⟨1.0, 0, none⟩)).isSome = true) := by
  constructor
  · exact fun fuel nivel res p G =>
      generar_nodos_neg (by norm_num) fuel nivel res p G
  · intro n
    apply generar_nodos_isSome
    · exact_mod_cast Int.ofNat_nonneg n
    · push_cast
      omega

/-- Claim C2: the dice tree has exactly 36 leaves, their probabilities sum
to exactly 1, and the analyzer's sum distribution assigns count 6 to sum 7
and count 1 to each of sums 2 and 12. -/
theorem c2_arbol_dado :
    (analizar_grafo crear_arbol_dado "dado").hojas.length = 36 ∧
    suma_prob_hojas crear_arbol_dado = 1 ∧
    ((analizar_grafo crear_arbol_dado "dado").sumas.getD []).map (fun e => (e.1, e.2.1))
      = [(2, 1), (3, 2), (4, 3), (5, 4), (6, 5), (7, 6),
         (8, 5), (9, 4), (10, 3), (11, 2), (12, 1)] := by
  refine ⟨by decide, ?_, by decide⟩
  have h : suma_prob_hojas crear_arbol_dado
      = (List.replicate 36 ((1/6 : ℚ) * (1/6))).sum := rfl
  rw [h, List.sum_replicate]
  norm_num

/-- Claim C10: the analyzer's dice distribution lists each sum `s` of 2..12
with leaf count `6 - |7 - s|` and empirical probability `count / 36`, those
counts agree with counting the out-degree-0 nodes whose stored sum is `s`,
and every leaf's sum lies between 2 and 12. -/
theorem c10_distribucion_de_sumas :
    (analizar_grafo crear_arbol_dado "dado").sumas
      = some [(2, 1, 1/36), (3, 2, 2/36), (4, 3, 3/36), (5, 4, 4/36), (6, 5, 5/36),
              (7, 6, 6/36), (8, 5, 5/36), (9, 4, 4/36), (10, 3, 3/36), (11, 2, 2/36),
              (12, 1, 1/36)] ∧
    (List.range' 2 11).Forall (fun s =>
      ((crear_arbol_dado.nodes.filter (fun e =>
          out_degree crear_arbol_dado e.1 == 0 && e.2.suma.getD 0 == s)).length : ℤ)
        = 6 - |7 - (s : ℤ)|) ∧
    crear_arbol_dado.nodes.Forall (fun e =>
      out_degree crear_arbol_dado e.1 = 0 →
        2 ≤ e.2.suma.getD 0 ∧ e.2.suma.getD 0 ≤ 12) := by
  refine ⟨?_, by decide, by decide⟩
  have h : (analizar_grafo crear_arbol_dado "dado").sumas
      = some ((([(2, 1), (3, 2), (4, 3), (5, 4), (6, 5), (7, 6), (8, 5), (9, 4),
          (10, 3), (11, 2), (12, 1)] : List (ℕ × ℕ))).map
            (fun e => (e.1, e.2, (e.2 : ℚ) / ((36 : ℕ) : ℚ)))) := rfl
  rw [h]
  norm_num

/-- Claim C5 (counterexample): stripping the sentinel `"Inicio"` from the
leaf labels of the 2-flip coin tree yields "CC", "CS", "SC", "SS" — the
source labels coins with C (cara) and S (sello) — so "HH" is not a leaf
label and the claimed set {"HH", "HT", "TH", "TT"} is wrong. -/
theorem c5_contraejemplo_etiquetas :
    "HH" ∉ (analizar_grafo (crear_arbol_monedas 2) "moneda").hojas.map
      (fun h => str_replace h "Inicio" "") := by decide

/-- Claim C5 (amended): for the 2-flip coin tree the leaf labels with the
sentinel prefix stripped are "CC", "CS", "SC", "SS", every leaf has
probability 0.25, and the analyzer reports 7 nodes, 6 edges, 4 leaves and
height 2. -/
theorem c5_arbol_dos_monedas :
    (analizar_grafo (crear_arbol_monedas 2) "moneda").hojas.map
        (fun h => str_replace h "Inicio" "") = ["CC", "CS", "SC", "SS"] ∧
    ((crear_arbol_monedas 2).nodes.filter
        (fun e => out_degree (crear_arbol_monedas 2) e.1 == 0)).map (fun e => e.2.prob)
      = [0.25, 0.25, 0.25, 0.25] ∧
    (analizar_grafo (crear_arbol_monedas 2) "moneda").nodos = 7 ∧
    (analizar_grafo (crear_arbol_monedas 2) "moneda").aristas = 6 ∧
    (analizar_grafo (crear_arbol_monedas 2) "moneda").hojas.length = 4 ∧
    (analizar_grafo (crear_arbol_monedas 2) "moneda").altura = some 2 := by
  refine ⟨by decide, ?_, by decide, by decide, by decide, by decide⟩
  have h : ((crear_arbol_monedas 2).nodes.filter
      (fun e => out_degree (crear_arbol_monedas 2) e.1 == 0)).map (fun e => e.2.prob)
      = List.replicate 4 ((1.0 : ℚ) * 0.5 * 0.5) := rfl
  rw [h]
  norm_num [List.replicate]

/-- Claim C4 (counterexample): a dice-type report on the 1-flip coin tree —
a graph whose leaves lack the `suma` attribute — does not fail:
`analizar_grafo` reads each missing sum as 0 (`.get('suma', 0)`) and returns
the distribution that counts both leaves under sum 0. -/
theorem c4_contraejemplo_sin_suma :
    (analizar_grafo (crear_arbol_monedas 1) "dado").sumas = some [(0, 2, 1)] := by
  have h : (analizar_grafo (crear_arbol_monedas 1) "dado").sumas
      = some [(0, 2, ((2 : ℕ) : ℚ) / ((2 : ℕ) : ℚ))] := rfl
  rw [h]
  norm_num

/-! ### Shape of the closed-form coin subtree -/

lemma str_append_ne_empty {a : String} (w : String) (ha : a ≠ "") : a ++ w ≠ "" := by
  intro h
  have h1 := congrArg String.length h
  rw [String.length_append] at h1
  have h2 := str_length_pos ha
  have h3 : ("" : String).length = 0 := rfl
  rw [h3] at h1
  omega

lemma str_head_ne {a b : String} {c d : Char} {la lb : List Char}
    (ha : a.data = c :: la) (hb : b.data = d :: lb) (hcd : c ≠ d) : a ≠ b := by
  intro h
  rw [h, hb] at ha
  injection ha with h1 h2
  exact hcd h1.symm

lemma str_dataC (w : String) : ("C" ++ w : String).data = 'C' :: w.data := by
  rw [String.data_append]
  rfl

lemma str_dataS (w : String) : ("S" ++ w : String).data = 'S' :: w.data := by
  rw [String.data_append]
  rfl

lemma str_S_append_ne_C_append (w w' : String) : ("S" ++ w : String) ≠ "C" ++ w' :=
  str_head_ne (str_dataS w) (str_dataC w') (by decide)

lemma str_S_ne_C_append (w' : String) : ("S" : String) ≠ "C" ++ w' :=
  str_head_ne (show ("S" : String).data = 'S' :: [] from rfl) (str_dataC w') (by decide)

lemma str_S_append_ne_C (w : String) : ("S" ++ w : String) ≠ "C" :=
  str_head_ne (str_dataS w) (show ("C" : String).data = 'C' :: [] from rfl) (by decide)

lemma coinNodes_key_shape :
    ∀ (k nivel : ℕ) (res : String) (p : ℚ) (x : String × NodeData),
      x ∈ coinNodes k nivel res p → ∃ w : String, w ≠ "" ∧ x.1 = res ++ w := by
  intro k
  induction k with
  | zero =>
    intro nivel res p x hx
    simp [coinNodes] at hx
  | succ k ih =>
    intro nivel res p x hx
    simp only [coinNodes, List.mem_append, List.mem_cons] at hx
    rcases hx with (h | h) | (h | h)
    · exact ⟨"C", by decide, by rw [h]⟩
    · rcases ih _ _ _ _ h with ⟨w, hw, hkey⟩
      exact ⟨"C" ++ w, str_append_ne_empty w (by decide),
        by rw [hkey, String.append_assoc]⟩
    · exact ⟨"S", by decide, by rw [h]⟩
    · rcases ih _ _ _ _ h with ⟨w, hw, hkey⟩
      exact ⟨"S" ++ w, str_append_ne_empty w (by decide),
        by rw [hkey, String.append_assoc]⟩

lemma coinEdges_tgt_shape :
    ∀ (k : ℕ) (res : String) (e : String × String × String),
      e ∈ coinEdges k res → ∃ w : String, w ≠ "" ∧ e.2.1 = res ++ w := by
  intro k
  induction k with
  | zero =>
    intro res e he
    simp [coinEdges] at he
  | succ k ih =>
    intro res e he
    simp only [coinEdges, List.mem_append, List.mem_cons] at he
    rcases he with (h | h) | (h | h)
    · exact ⟨"C", by decide, by rw [h]⟩
    · rcases ih _ _ h with ⟨w, hw, htgt⟩
      exact ⟨"C" ++ w, str_append_ne_empty w (by decide),
        by rw [htgt, String.append_assoc]⟩
    · exact ⟨"S", by decide, by rw [h]⟩
    · rcases ih _ _ h with ⟨w, hw, htgt⟩
      exact ⟨"S" ++ w, str_append_ne_empty w (by decide),
        by rw [htgt, String.append_assoc]⟩

/-! ### The generated graph in closed form -/

lemma generar_nodos_eq :
    ∀ (k : ℕ) (num : ℤ) (fuel nivel : ℕ) (res : String) (p : ℚ) (G : Grafo),
      num = (nivel : ℤ) + (k : ℤ) → k < fuel → Fresh G res →
      generar_nodos num fuel nivel res p G
        = some ⟨G.nodes ++ coinNodes k nivel res p, G.edges ++ coinEdges k res⟩ := by
  intro k
  induction k with
  | zero =>
    intro num fuel nivel res p G hnum hfuel hF
    obtain ⟨f, rfl⟩ : ∃ f, fuel = f + 1 := ⟨fuel - 1, by omega⟩
    have hg : (nivel : ℤ) = num := by push_cast at hnum; omega
    simp [generar_nodos, hg, coinNodes, coinEdges]
  | succ k ih =>
    intro num fuel nivel res p G hnum hfuel hF
    obtain ⟨f, rfl⟩ : ∃ f, fuel = f + 1 := ⟨fuel - 1, by omega⟩
    have hg : ¬((nivel : ℤ) = num) := by push_cast at hnum ⊢; omega
    have hCnode : res ++ "C" ∉ G.keys := hF.1 "C" (by decide)
    have hCtgt : ∀ e ∈ G.edges, e.2.1 ≠ res ++ "C" :=
      fun e he => hF.2 "C" (by decide) e he
    have eq1 : add_node G (res ++ "C") ⟨p * 0.5, nivel + 1, none⟩
        = ⟨G.nodes ++ [(res ++ "C", ⟨p * 0.5, nivel + 1, none⟩)], G.edges⟩ :=
      add_node_of_not_mem hCnode _
    have eq2 : add_edge (⟨G.nodes ++ [(res ++ "C", ⟨p * 0.5, nivel + 1, none⟩)], G.edges⟩ : Grafo)
        res (res ++ "C") "C (0.5)"
        = ⟨G.nodes ++ [(res ++ "C", ⟨p * 0.5, nivel + 1, none⟩)],
           G.edges ++ [(res, res ++ "C", "C (0.5)")]⟩ :=
      add_edge_of_not_tgt
        ⟨G.nodes ++ [(res ++ "C", ⟨p * 0.5, nivel + 1, none⟩)], G.edges⟩ hCtgt res "C (0.5)"
    have hFC : Fresh ⟨G.nodes ++ [(res ++ "C", ⟨p * 0.5, nivel + 1, none⟩)],
        G.edges ++ [(res, res ++ "C", "C (0.5)")]⟩ (res ++ "C") := by
      constructor
      · intro w hw hmem
        simp only [Grafo.keys, List.map_append, List.map_cons, List.map_nil,
          List.mem_append, List.mem_cons, List.not_mem_nil] at hmem
        rcases hmem with h | h
        · rw [String.append_assoc] at h
          exact hF.1 ("C" ++ w) (str_append_ne_empty w (by decide)) h
        · rcases h with h | h
          · exact str_append_ne_self hw h
          · exact h
      · intro w hw e he
        simp only [List.mem_append, List.mem_cons, List.not_mem_nil] at he
        rcases he with h | h
        · intro hh
          rw [String.append_assoc] at hh
          exact hF.2 ("C" ++ w) (str_append_ne_empty w (by decide)) e h hh
        · rcases h with h | h
          · rw [h]
            intro hh
            exact str_append_ne_self hw hh.symm
          · exact absurd h (by simp)
    have ihC := ih num f (nivel + 1) (res ++ "C") (p * 0.5)
      ⟨G.nodes ++ [(res ++ "C", ⟨p * 0.5, nivel + 1, none⟩)],
        G.edges ++ [(res, res ++ "C", "C (0.5)")]⟩
      (by push_cast at hnum ⊢; omega) (by omega) hFC
    simp only [generar_nodos, if_neg hg, eq1, eq2, ihC]
    have hSnode : res ++ "S" ∉
        (⟨G.nodes ++ [(res ++ "C", ⟨p * 0.5, nivel + 1, none⟩)]
            ++ coinNodes k (nivel + 1) (res ++ "C") (p * 0.5),
          G.edges ++ [(res, res ++ "C", "C (0.5)")]
            ++ coinEdges k (res ++ "C")⟩ : Grafo).keys := by
      intro hmem
      simp only [Grafo.keys, List.map_append, List.map_cons, List.map_nil,
        List.mem_append, List.mem_cons, List.not_mem_nil, or_false] at hmem
      rcases hmem with (h | h) | h
      · exact hF.1 "S" (by decide) h
      · exact absurd (str_append_cancel h) (by decide)
      · rcases List.mem_map.mp h with ⟨x, hx, hkey⟩
        rcases coinNodes_key_shape _ _ _ _ x hx with ⟨w, hw, hxk⟩
        rw [hxk, String.append_assoc] at hkey
        exact str_S_ne_C_append w (str_append_cancel hkey.symm)
    have eq3 : add_node
        (⟨G.nodes ++ [(res ++ "C", ⟨p * 0.5, nivel + 1, none⟩)]
            ++ coinNodes k (nivel + 1) (res ++ "C") (p * 0.5),
          G.edges ++ [(res, res ++ "C", "C (0.5)")]
            ++ coinEdges k (res ++ "C")⟩ : Grafo)
        (res ++ "S") ⟨p * 0.5, nivel + 1, none⟩
        = ⟨G.nodes ++ [(res ++ "C", ⟨p * 0.5, nivel + 1, none⟩)]
            ++ coinNodes k (nivel + 1) (res ++ "C") (p * 0.5)
            ++ [(res ++ "S", ⟨p * 0.5, nivel + 1, none⟩)],
          G.edges ++ [(res, res ++ "C", "C (0.5)")]
            ++ coinEdges k (res ++ "C")⟩ :=
      add_node_of_not_mem hSnode _
    have hStgt : ∀ e ∈ G.edges ++ [(res, res ++ "C", "C (0.5)")]
        ++ coinEdges k (res ++ "C"), e.2.1 ≠ res ++ "S" := by
      intro e he
      simp only [List.mem_append, List.mem_cons, List.not_mem_nil, or_false] at he
      rcases he with (h | h) | h
      · exact hF.2 "S" (by decide) e h
      · rw [h]
        intro hh
        exact absurd (str_append_cancel hh) (by decide)
      · rcases coinEdges_tgt_shape _ _ e h with ⟨w, hw, htgt⟩
        rw [htgt, String.append_assoc]
        intro hh
        exact (str_S_ne_C_append w).symm (str_append_cancel hh)
    have eq4 : add_edge
        (⟨G.nodes ++ [(res ++ "C", ⟨p * 0.5, nivel + 1, none⟩)]
            ++ coinNodes k (nivel + 1) (res ++ "C") (p * 0.5)
            ++ [(res ++ "S", ⟨p * 0.5, nivel + 1, none⟩)],
          G.edges ++ [(res, res ++ "C", "C (0.5)")]
            ++ coinEdges k (res ++ "C")⟩ : Grafo)
        res (res ++ "S") "S (0.5)"
        = ⟨G.nodes ++ [(res ++ "C", ⟨p * 0.5, nivel + 1, none⟩)]
            ++ coinNodes k (nivel + 1) (res ++ "C") (p * 0.5)
            ++ [(res ++ "S", ⟨p * 0.5, nivel + 1, none⟩)],
          G.edges ++ [(res, res ++ "C", "C (0.5)")]
            ++ coinEdges k (res ++ "C")
            ++ [(res, res ++ "S", "S (0.5)")]⟩ :=
      add_edge_of_not_tgt _ hStgt res "S (0.5)"
    have hFS : Fresh
        (⟨G.nodes ++ [(res ++ "C", ⟨p * 0.5, nivel + 1, none⟩)]
            ++ coinNodes k (nivel + 1) (res ++ "C") (p * 0.5)
            ++ [(res ++ "S", ⟨p * 0.5, nivel + 1, none⟩)],
          G.edges ++ [(res, res ++ "C", "C (0.5)")]
            ++ coinEdges k (res ++ "C")
            ++ [(res, res ++ "S", "S (0.5)")]⟩ : Grafo) (res ++ "S") := by
      constructor
      · intro w hw hmem
        simp only [Grafo.keys, List.map_append, List.map_cons, List.map_nil,
          List.mem_append, List.mem_cons, List.not_mem_nil, or_false] at hmem
        rcases hmem with ((h | h) | h) | h
        · rw [String.append_assoc] at h
          exact hF.1 ("S" ++ w) (str_append_ne_empty w (by decide)) h
        · rw [String.append_assoc] at h
          exact str_S_append_ne_C w (str_append_cancel h)
        · rcases List.mem_map.mp h with ⟨x, hx, hkey⟩
          rcases coinNodes_key_shape _ _ _ _ x hx with ⟨w', hw', hxk⟩
          rw [hxk, String.append_assoc] at hkey
          rw [String.append_assoc] at hkey
          exact str_S_append_ne_C_append w w' (str_append_cancel hkey.symm)
        · exact str_append_ne_self hw h
      · intro w hw e he
        simp only [List.mem_append, List.mem_cons, List.not_mem_nil, or_false] at he
        rcases he with ((h | h) | h) | h
        · intro hh
          rw [String.append_assoc] at hh
          exact hF.2 ("S" ++ w) (str_append_ne_empty w (by decide)) e h hh
        · rw [h]
          intro hh
          rw [String.append_assoc] at hh
          exact str_S_append_ne_C w (str_append_cancel hh.symm)
        · rcases coinEdges_tgt_shape _ _ e h with ⟨w', hw', htgt⟩
          rw [htgt, String.append_assoc, String.append_assoc]
          intro hh
          exact str_S_append_ne_C_append w w' (str_append_cancel hh).symm
        · rw [h]
          intro hh
          exact str_append_ne_self hw hh.symm
    have ihS := ih num f (nivel + 1) (res ++ "S") (p * 0.5)
      (⟨G.nodes ++ [(res ++ "C", ⟨p * 0.5, nivel + 1, none⟩)]
          ++ coinNodes k (nivel + 1) (res ++ "C") (p * 0.5)
          ++ [(res ++ "S", ⟨p * 0.5, nivel + 1, none⟩)],
        G.edges ++ [(res, res ++ "C", "C (0.5)")]
          ++ coinEdges k (res ++ "C")
          ++ [(res, res ++ "S", "S (0.5)")]⟩ : Grafo)
      (by push_cast at hnum ⊢; omega) (by omega) hFS
    rw [eq3, eq4, ihS]
    simp [coinNodes, coinEdges, List.append_assoc]

lemma crear_arbol_monedas_eq (n : ℕ) :
    crear_arbol_monedas n
      = ⟨("Inicio", ⟨1.0, 0, none⟩) :: coinNodes n 0 "Inicio" 1.0,
         coinEdges n "Inicio"⟩ := by
  have hF : Fresh ⟨[("Inicio", ⟨1.0, 0, none⟩)], []⟩ "Inicio" := by
    constructor
    · intro w hw hmem
      simp only [Grafo.keys, List.map_cons, List.map_nil, List.mem_cons,
        List.not_mem_nil, or_false] at hmem
      exact str_append_ne_self hw hmem
    · intro w hw e he
      simp at he
  have h := generar_nodos_eq n (n : ℤ) (n + 1) 0 "Inicio" 1.0
    ⟨[("Inicio", ⟨1.0, 0, none⟩)], []⟩ (by push_cast; omega) (by omega) hF
  simp only [crear_arbol_monedas]
  rw [show add_node Grafo.vacio "Inicio" ⟨1.0, 0, none⟩
      = (⟨[("Inicio", ⟨1.0, 0, none⟩)], []⟩ : Grafo) from rfl, h]
  rfl

/-- Every entry of the coin subtree below `res`: its key extends `res` by a
non-empty word `w`, its probability is the accumulated `p` halved once per
letter, its level is the entry level plus the word length (at most `k`), and
it carries no `suma`. -/
lemma coinNodes_attrs :
    ∀ (k nivel : ℕ) (res : String) (p : ℚ) (x : String × NodeData),
      x ∈ coinNodes k nivel res p →
      ∃ w : String, w ≠ "" ∧ x.1 = res ++ w ∧
        x.2.prob = p * (0.5 : ℚ) ^ w.length ∧
        x.2.nivel = nivel + w.length ∧ w.length ≤ k ∧ x.2.suma = none := by
  intro k
  induction k with
  | zero =>
    intro nivel res p x hx
    simp [coinNodes] at hx
  | succ k ih =>
    intro nivel res p x hx
    simp only [coinNodes, List.mem_append, List.mem_cons] at hx
    have hC1 : ("C" : String).length = 1 := by decide
    have hS1 : ("S" : String).length = 1 := by decide
    rcases hx with (h | h) | (h | h)
    · refine ⟨"C", by decide, ?_, ?_, ?_, ?_, ?_⟩
      · rw [h]
      · rw [h, hC1, pow_one]
      · rw [h, hC1]
      · rw [hC1]
        omega
      · rw [h]
    · rcases ih _ _ _ _ h with ⟨w, hw, hkey, hprob, hniv, hlen, hsuma⟩
      refine ⟨"C" ++ w, str_append_ne_empty w (by decide),
        by rw [hkey, String.append_assoc], ?_, ?_, ?_, hsuma⟩
      · rw [hprob, String.length_append, hC1]
        ring
      · rw [hniv, String.length_append, hC1]
        omega
      · rw [String.length_append, hC1]
        omega
    · refine ⟨"S", by decide, ?_, ?_, ?_, ?_, ?_⟩
      · rw [h]
      · rw [h, hS1, pow_one]
      · rw [h, hS1]
      · rw [hS1]
        omega
      · rw [h]
    · rcases ih _ _ _ _ h with ⟨w, hw, hkey, hprob, hniv, hlen, hsuma⟩
      refine ⟨"S" ++ w, str_append_ne_empty w (by decide),
        by rw [hkey, String.append_assoc], ?_, ?_, ?_, hsuma⟩
      · rw [hprob, String.length_append, hS1]
        ring
      · rw [hniv, String.length_append, hS1]
        omega
      · rw [String.length_append, hS1]
        omega

/-- The keys of a coin subtree are pairwise distinct. -/
lemma coinNodes_keys_nodup :
    ∀ (k nivel : ℕ) (res : String) (p : ℚ),
      ((coinNodes k nivel res p).map (fun x => x.1)).Nodup := by
  intro k
  induction k with
  | zero =>
    intro nivel res p
    simp [coinNodes]
  | succ k ih =>
    intro nivel res p
    simp only [coinNodes, List.map_append, List.map_cons]
    rw [List.nodup_append]
    refine ⟨?_, ?_, ?_⟩
    · rw [List.nodup_cons]
      refine ⟨?_, ih _ _ _⟩
      intro hmem
      rcases List.mem_map.mp hmem with ⟨x, hx, hkey⟩
      rcases coinNodes_key_shape _ _ _ _ x hx with ⟨w, hw, hxk⟩
      rw [hxk] at hkey
      exact str_append_ne_self hw hkey
    · rw [List.nodup_cons]
      refine ⟨?_, ih _ _ _⟩
      intro hmem
      rcases List.mem_map.mp hmem with ⟨x, hx, hkey⟩
      rcases coinNodes_key_shape _ _ _ _ x hx with ⟨w, hw, hxk⟩
      rw [hxk] at hkey
      exact str_append_ne_self hw hkey
    · intro u hu hv
      have hu' : u = res ++ "C" ∨ ∃ w : String, w ≠ "" ∧ u = (res ++ "C") ++ w := by
        rcases List.mem_cons.mp hu with h | h
        · exact Or.inl h
        · rcases List.mem_map.mp h with ⟨x, hx, hkey⟩
          rcases coinNodes_key_shape _ _ _ _ x hx with ⟨w, hw, hxk⟩
          exact Or.inr ⟨w, hw, by rw [← hkey, hxk]⟩
      have hv' : u = res ++ "S" ∨ ∃ w : String, w ≠ "" ∧ u = (res ++ "S") ++ w := by
        rcases List.mem_cons.mp hv with h | h
        · exact Or.inl h
        · rcases List.mem_map.mp h with ⟨x, hx, hkey⟩
          rcases coinNodes_key_shape _ _ _ _ x hx with ⟨w, hw, hxk⟩
          exact Or.inr ⟨w, hw, by rw [← hkey, hxk]⟩
      rcases hu' with h | ⟨w, hw, h⟩ <;> rcases hv' with h' | ⟨w', hw', h'⟩
      · rw [h] at h'
        exact absurd (str_append_cancel h') (by decide)
      · rw [h, String.append_assoc] at h'
        exact (str_S_append_ne_C w').symm (str_append_cancel h')
      · rw [h', String.append_assoc] at h
        exact str_S_ne_C_append w (str_append_cancel h)
      · rw [h, String.append_assoc] at h'
        rw [String.append_assoc] at h'
        exact (str_S_append_ne_C_append w' w).symm (str_append_cancel h')

/-- Each generated edge targets exactly the key of the node added with it:
the target list of `coinEdges` is the key list of `coinNodes`. -/
lemma coinEdges_tgts_eq_keys :
    ∀ (k nivel : ℕ) (res : String) (p : ℚ),
      (coinEdges k res).map (fun e => e.2.1)
        = (coinNodes k nivel res p).map (fun x => x.1) := by
  intro k
  induction k with
  | zero =>
    intro nivel res p
    simp [coinNodes, coinEdges]
  | succ k ih =>
    intro nivel res p
    simp only [coinNodes, coinEdges, List.map_append, List.map_cons]
    rw [ih (nivel + 1) (res ++ "C") (p * 0.5), ih (nivel + 1) (res ++ "S") (p * 0.5)]

/-- Shape of a generated edge: the target appends one letter to the source,
the source is `res` or a strict extension of it, and the source sits strictly
above the lowest generated level. -/
lemma coinEdges_shape :
    ∀ (k : ℕ) (res : String) (e : String × String × String),
      e ∈ coinEdges k res →
      (e.2.1 = e.1 ++ "C" ∨ e.2.1 = e.1 ++ "S") ∧
        (e.1 = res ∨ ∃ w : String, w ≠ "" ∧ e.1 = res ++ w) ∧
        e.1.length + 1 ≤ res.length + k := by
  intro k
  induction k with
  | zero =>
    intro res e he
    simp [coinEdges] at he
  | succ k ih =>
    intro res e he
    have hC1 : ("C" : String).length = 1 := by decide
    have hS1 : ("S" : String).length = 1 := by decide
    simp only [coinEdges, List.mem_append, List.mem_cons] at he
    rcases he with (h | h) | (h | h)
    · rw [h]
      refine ⟨Or.inl rfl, Or.inl rfl, ?_⟩
      show res.length + 1 ≤ res.length + (k + 1)
      omega
    · rcases ih _ _ h with ⟨h1, h2, h3⟩
      refine ⟨h1, ?_, ?_⟩
      · rcases h2 with h2 | ⟨w, hw, h2⟩
        · exact Or.inr ⟨"C", by decide, by rw [h2]⟩
        · exact Or.inr ⟨"C" ++ w, str_append_ne_empty w (by decide),
            by rw [h2, String.append_assoc]⟩
      · rw [String.length_append, hC1] at h3
        omega
    · rw [h]
      refine ⟨Or.inr rfl, Or.inl rfl, ?_⟩
      show res.length + 1 ≤ res.length + (k + 1)
      omega
    · rcases ih _ _ h with ⟨h1, h2, h3⟩
      refine ⟨h1, ?_, ?_⟩
      · rcases h2 with h2 | ⟨w, hw, h2⟩
        · exact Or.inr ⟨"S", by decide, by rw [h2]⟩
        · exact Or.inr ⟨"S" ++ w, str_append_ne_empty w (by decide),
            by rw [h2, String.append_assoc]⟩
      · rw [String.length_append, hS1] at h3
        omega

/-- Every node generated strictly above the lowest level has an outgoing
"C" edge. -/
lemma coinNodes_child_edge :
    ∀ (k nivel : ℕ) (res : String) (p : ℚ) (x : String × NodeData),
      x ∈ coinNodes k nivel res p → x.2.nivel < nivel + k →
      (x.1, x.1 ++ "C", "C (0.5)") ∈ coinEdges k res := by
  intro k
  induction k with
  | zero =>
    intro nivel res p x hx
    simp [coinNodes] at hx
  | succ k ih =>
    intro nivel res p x hx hlt
    simp only [coinNodes, List.mem_append, List.mem_cons] at hx
    simp only [coinEdges, List.mem_append, List.mem_cons]
    rcases hx with (h | h) | (h | h)
    · have hk : 0 < k := by
        rw [h] at hlt
        simp at hlt
        omega
      obtain ⟨k', rfl⟩ : ∃ k', k = k' + 1 := ⟨k - 1, by omega⟩
      rw [h]
      exact Or.inl (Or.inr (by simp [coinEdges]))
    · have := ih (nivel + 1) (res ++ "C") (p * 0.5) x h (by omega)
      exact Or.inl (Or.inr this)
    · have hk : 0 < k := by
        rw [h] at hlt
        simp at hlt
        omega
      obtain ⟨k', rfl⟩ : ∃ k', k = k' + 1 := ⟨k - 1, by omega⟩
      rw [h]
      exact Or.inr (Or.inr (by simp [coinEdges]))
    · have := ih (nivel + 1) (res ++ "S") (p * 0.5) x h (by omega)
      exact Or.inr (Or.inr this)

/-- Every node generated strictly above the lowest level has its "C" child
among the generated nodes, one level lower. -/
lemma coinNodes_child_node :
    ∀ (k nivel : ℕ) (res : String) (p : ℚ) (x : String × NodeData),
      x ∈ coinNodes k nivel res p → x.2.nivel < nivel + k →
      ∃ d : NodeData, (x.1 ++ "C", d) ∈ coinNodes k nivel res p ∧
        d.nivel = x.2.nivel + 1 := by
  intro k
  induction k with
  | zero =>
    intro nivel res p x hx
    simp [coinNodes] at hx
  | succ k ih =>
    intro nivel res p x hx hlt
    simp only [coinNodes, List.mem_append, List.mem_cons] at hx
    rcases hx with (h | h) | (h | h)
    · have hk : 0 < k := by
        rw [h] at hlt
        simp at hlt
        omega
      obtain ⟨k', rfl⟩ : ∃ k', k = k' + 1 := ⟨k - 1, by omega⟩
      refine ⟨⟨p * 0.5 * 0.5, nivel + 1 + 1, none⟩, ?_, by rw [h]⟩
      rw [h]
      simp [coinNodes]
    · rcases ih (nivel + 1) (res ++ "C") (p * 0.5) x h (by omega) with ⟨d, hd, hdn⟩
      refine ⟨d, ?_, hdn⟩
      simp only [coinNodes, List.mem_append, List.mem_cons]
      exact Or.inl (Or.inr hd)
    · have hk : 0 < k := by
        rw [h] at hlt
        simp at hlt
        omega
      obtain ⟨k', rfl⟩ : ∃ k', k = k' + 1 := ⟨k - 1, by omega⟩
      refine ⟨⟨p * 0.5 * 0.5, nivel + 1 + 1, none⟩, ?_, by rw [h]⟩
      rw [h]
      simp [coinNodes]
    · rcases ih (nivel + 1) (res ++ "S") (p * 0.5) x h (by omega) with ⟨d, hd, hdn⟩
      refine ⟨d, ?_, hdn⟩
      simp only [coinNodes, List.mem_append, List.mem_cons]
      exact Or.inr (Or.inr hd)

/-- Exactly `2^k` generated nodes sit at the lowest level of a `k`-level
coin subtree. -/
lemma coinNodes_countP_nivel :
    ∀ (k nivel : ℕ) (res : String) (p : ℚ), 0 < k →
      (coinNodes k nivel res p).countP (fun x => x.2.nivel == nivel + k) = 2 ^ k := by
  intro k
  induction k with
  | zero =>
    intro nivel res p hk
    omega
  | succ k ih =>
    intro nivel res p _
    rcases Nat.eq_zero_or_pos k with rfl | hk
    · simp [coinNodes, List.countP_cons, List.countP_append]
    · have hne : ((nivel + 1 : ℕ) == nivel + (k + 1)) = false := by
        simp only [beq_eq_false_iff_ne, ne_eq]
        omega
      simp only [coinNodes, List.countP_append, List.countP_cons, hne,
        Bool.false_eq_true, if_false]
      simp only [show nivel + (k + 1) = nivel + 1 + k from by omega]
      rw [ih (nivel + 1) (res ++ "C") (p * 0.5) hk,
        ih (nivel + 1) (res ++ "S") (p * 0.5) hk]
      ring

/-- The probabilities at the lowest level of a `k`-level coin subtree sum to
the probability `p` at its top. -/
lemma coinNodes_prob_sum :
    ∀ (k nivel : ℕ) (res : String) (p : ℚ), 0 < k →
      (((coinNodes k nivel res p).filter (fun x => x.2.nivel == nivel + k)).map
        (fun x => x.2.prob)).sum = p := by
  intro k
  induction k with
  | zero =>
    intro nivel res p hk
    omega
  | succ k ih =>
    intro nivel res p _
    rcases Nat.eq_zero_or_pos k with rfl | hk
    · simp [coinNodes]
      ring
    · have hne : ((nivel + 1 : ℕ) == nivel + (k + 1)) = false := by
        simp only [beq_eq_false_iff_ne, ne_eq]
        omega
      simp only [coinNodes, List.filter_append, List.filter_cons, hne,
        Bool.false_eq_true, if_false, List.map_append, List.sum_append]
      simp only [show nivel + (k + 1) = nivel + 1 + k from by omega]
      rw [ih (nivel + 1) (res ++ "C") (p * 0.5) hk,
        ih (nivel + 1) (res ++ "S") (p * 0.5) hk]
      ring

/-- A `k`-level coin subtree holds `2^(k+1) - 2` nodes. -/
lemma coinNodes_length :
    ∀ (k nivel : ℕ) (res : String) (p : ℚ),
      (coinNodes k nivel res p).length + 2 = 2 ^ (k + 1) := by
  intro k
  induction k with
  | zero =>
    intro nivel res p
    simp [coinNodes]
  | succ k ih =>
    intro nivel res p
    simp only [coinNodes, List.length_append, List.length_cons]
    have h1 := ih (nivel + 1) (res ++ "C") (p * 0.5)
    have h2 := ih (nivel + 1) (res ++ "S") (p * 0.5)
    have hp : 2 ^ (k + 1 + 1) = 2 ^ (k + 1) + 2 ^ (k + 1) := by ring
    omega

/-! ### Graph-level facts about the generated coin tree -/

lemma coinEdges_headC_mem {k : ℕ} (res : String) (hk : 0 < k) :
    (res, res ++ "C", "C (0.5)") ∈ coinEdges k res := by
  obtain ⟨k', rfl⟩ : ∃ k', k = k' + 1 := ⟨k - 1, by omega⟩
  simp [coinEdges]

lemma coinNodes_headC_mem {k : ℕ} (nivel : ℕ) (res : String) (p : ℚ) (hk : 0 < k) :
    (res ++ "C", ⟨p * 0.5, nivel + 1, none⟩) ∈ coinNodes k nivel res p := by
  obtain ⟨k', rfl⟩ : ∃ k', k = k' + 1 := ⟨k - 1, by omega⟩
  simp [coinNodes]

lemma out_degree_pos {G : Grafo} {u : String} {e : String × String × String}
    (he : e ∈ G.edges) (hu : e.1 = u) : 0 < out_degree G u := by
  have hmem : e ∈ G.edges.filter (fun e => e.1 == u) :=
    List.mem_filter.mpr ⟨he, by simp [hu]⟩
  exact List.length_pos_of_mem hmem

lemma out_degree_eq_zero {G : Grafo} {u : String}
    (h : ∀ e ∈ G.edges, e.1 ≠ u) : out_degree G u = 0 := by
  unfold out_degree
  rw [List.length_eq_zero, List.filter_eq_nil_iff]
  intro e he
  simp [h e he]

lemma foldr_max_le {l : List ℕ} {B : ℕ} (h : ∀ x ∈ l, x ≤ B) : l.foldr max 0 ≤ B := by
  induction l with
  | nil => simp
  | cons a l ih =>
    simp only [List.foldr_cons]
    exact max_le (h a (by simp)) (ih fun x hx => h x (by simp [hx]))

lemma le_foldr_max {l : List ℕ} {x : ℕ} (hx : x ∈ l) : x ≤ l.foldr max 0 := by
  induction l with
  | nil => simp at hx
  | cons a l ih =>
    simp only [List.foldr_cons]
    rcases List.mem_cons.mp hx with rfl | h
    · exact le_max_left _ _
    · exact le_trans (ih h) (le_max_right _ _)

/-- In the coin tree, a node's out-degree is zero exactly when its level is
the flip count: inner nodes keep their two children, lowest-level nodes have
no outgoing edge. -/
lemma monedas_leaf_iff (n : ℕ) :
    ∀ x ∈ (crear_arbol_monedas n).nodes,
      ((out_degree (crear_arbol_monedas n) x.1 == 0) = (x.2.nivel == n)) := by
  intro x hx
  rw [crear_arbol_monedas_eq] at hx ⊢
  have h6 : ("Inicio" : String).length = 6 := by decide
  rcases List.mem_cons.mp hx with rfl | hx
  · -- the root
    rcases Nat.eq_zero_or_pos n with rfl | hn
    · simp [out_degree, coinEdges]
    · have hpos : 0 < out_degree ⟨("Inicio", ⟨1.0, 0, none⟩) :: coinNodes n 0 "Inicio" 1.0,
          coinEdges n "Inicio"⟩ "Inicio" :=
        out_degree_pos (coinEdges_headC_mem "Inicio" hn) rfl
      have h1 : ((0 : ℕ) == n) = false := by
        simp only [beq_eq_false_iff_ne, ne_eq]
        omega
      have h2 : (out_degree ⟨("Inicio", ⟨1.0, 0, none⟩) :: coinNodes n 0 "Inicio" 1.0,
          coinEdges n "Inicio"⟩ "Inicio" == 0) = false := by
        simp only [beq_eq_false_iff_ne, ne_eq]
        omega
      rw [h2, h1]
  · rcases coinNodes_attrs _ _ _ _ x hx with ⟨w, hw, hkey, -, hniv, hlen, -⟩
    rcases Nat.lt_or_ge x.2.nivel n with hlt | hge
    · have hedge := coinNodes_child_edge n 0 "Inicio" 1.0 x hx (by omega)
      have hpos : 0 < out_degree ⟨("Inicio", ⟨1.0, 0, none⟩) :: coinNodes n 0 "Inicio" 1.0,
          coinEdges n "Inicio"⟩ x.1 := out_degree_pos hedge rfl
      have h1 : (x.2.nivel == n) = false := by
        simp only [beq_eq_false_iff_ne, ne_eq]
        omega
      have h2 : (out_degree ⟨("Inicio", ⟨1.0, 0, none⟩) :: coinNodes n 0 "Inicio" 1.0,
          coinEdges n "Inicio"⟩ x.1 == 0) = false := by
        simp only [beq_eq_false_iff_ne, ne_eq]
        omega
      rw [h2, h1]
    · have hniv' : x.2.nivel = n := by omega
      have hlenx : x.1.length = 6 + n := by
        rw [hkey, String.length_append, h6]
        omega
      have hzero : out_degree ⟨("Inicio", ⟨1.0, 0, none⟩) :: coinNodes n 0 "Inicio" 1.0,
          coinEdges n "Inicio"⟩ x.1 = 0 := by
        apply out_degree_eq_zero
        intro e he hesrc
        rcases coinEdges_shape n "Inicio" e he with ⟨-, -, hlen'⟩
        rw [hesrc, hlenx, h6] at hlen'
        omega
      rw [hzero, hniv']
      simp

/-- The coin tree for `n` flips has exactly `2^n` leaves. -/
lemma monedas_hojas_length (n : ℕ) :
    ((crear_arbol_monedas n).keys.filter
      (fun u => out_degree (crear_arbol_monedas n) u == 0)).length = 2 ^ n := by
  rw [← List.countP_eq_length_filter]
  unfold Grafo.keys
  rw [List.countP_map]
  have hcongr : (crear_arbol_monedas n).nodes.countP
      ((fun u => out_degree (crear_arbol_monedas n) u == 0) ∘ (fun e => e.1))
      = (crear_arbol_monedas n).nodes.countP (fun x => x.2.nivel == n) := by
    apply List.countP_congr
    intro x hx
    have h := monedas_leaf_iff n x hx
    simp only [Function.comp]
    rw [h]
  rw [hcongr, crear_arbol_monedas_eq]
  rcases Nat.eq_zero_or_pos n with rfl | hn
  · simp [coinNodes, List.countP_cons]
  · have hcount := coinNodes_countP_nivel n 0 "Inicio" 1.0 hn
    simp only [Nat.zero_add] at hcount
    have hne : ((0 : ℕ) == n) = false := by
      simp only [beq_eq_false_iff_ne, ne_eq]
      omega
    simp only [List.countP_cons, hne, Bool.false_eq_true, if_false, hcount]
    omega

/-- The probabilities on the leaves of the coin tree sum to exactly 1. -/
lemma monedas_prob_hojas (n : ℕ) : suma_prob_hojas (crear_arbol_monedas n) = 1 := by
  unfold suma_prob_hojas
  rw [List.filter_congr (monedas_leaf_iff n), crear_arbol_monedas_eq]
  rcases Nat.eq_zero_or_pos n with rfl | hn
  · simp [coinNodes]
    norm_num
  · have hsum := coinNodes_prob_sum n 0 "Inicio" 1.0 hn
    simp only [Nat.zero_add] at hsum
    have hne : ((0 : ℕ) == n) = false := by
      simp only [beq_eq_false_iff_ne, ne_eq]
      omega
    simp only [List.filter_cons, hne, Bool.false_eq_true, if_false, hsum]
    norm_num

/-- Every node of the coin tree stores probability `0.5 ^ nivel`. -/
lemma monedas_prob_nivel (n : ℕ) :
    ∀ x ∈ (crear_arbol_monedas n).nodes, x.2.prob = (0.5 : ℚ) ^ x.2.nivel := by
  intro x hx
  rw [crear_arbol_monedas_eq] at hx
  rcases List.mem_cons.mp hx with rfl | hx
  · norm_num
  · rcases coinNodes_attrs _ _ _ _ x hx with ⟨w, -, -, hprob, hniv, -, -⟩
    rw [hprob, hniv]
    norm_num

/-- Every leaf of the coin tree stores probability `0.5 ^ n`. -/
lemma monedas_leaf_prob (n : ℕ) :
    ∀ x ∈ (crear_arbol_monedas n).nodes,
      out_degree (crear_arbol_monedas n) x.1 = 0 → x.2.prob = (0.5 : ℚ) ^ n := by
  intro x hx h0
  have hiff := monedas_leaf_iff n x hx
  have hniv : x.2.nivel = n := by
    have ht : (x.2.nivel == n) = true := by
      rw [← hiff]
      simp [h0]
    simpa using ht
  rw [← hniv]
  exact monedas_prob_nivel n x hx

/-- The root of the coin tree has no incoming edge. -/
lemma monedas_in_degree_root (n : ℕ) :
    in_degree (crear_arbol_monedas n) "Inicio" = 0 := by
  rw [crear_arbol_monedas_eq]
  unfold in_degree
  rw [List.length_eq_zero, List.filter_eq_nil_iff]
  intro e he
  rcases coinEdges_tgt_shape n "Inicio" e he with ⟨w, hw, htgt⟩
  simp only [beq_iff_eq]
  rw [htgt]
  exact str_append_ne_self hw

/-- Every generated (non-root) node of the coin tree has exactly one
incoming edge. -/
lemma monedas_in_degree_other (n : ℕ) :
    ∀ x ∈ coinNodes n 0 "Inicio" 1.0,
      in_degree (crear_arbol_monedas n) x.1 = 1 := by
  intro x hx
  rw [crear_arbol_monedas_eq]
  unfold in_degree
  rw [← List.countP_eq_length_filter]
  have h1 : (coinEdges n "Inicio").countP (fun e => e.2.1 == x.1)
      = ((coinEdges n "Inicio").map (fun e => e.2.1)).countP (fun v => v == x.1) := by
    rw [List.countP_map]
    rfl
  have h2 : ((coinNodes n 0 "Inicio" 1.0).map (fun y => y.1)).count x.1 = 1 :=
    List.count_eq_one_of_mem (coinNodes_keys_nodup n 0 "Inicio" 1.0)
      (List.mem_map.mpr ⟨x, hx, rfl⟩)
  rw [List.count_eq_countP] at h2
  show (coinEdges n "Inicio").countP (fun e => e.2.1 == x.1) = 1
  rw [h1, coinEdges_tgts_eq_keys n 0 "Inicio" 1.0, h2]

/-- Every edge of the coin tree lengthens the label by one letter. -/
lemma monedas_edge_len (n : ℕ) :
    ∀ e ∈ (crear_arbol_monedas n).edges, e.2.1.length = e.1.length + 1 := by
  intro e he
  rw [crear_arbol_monedas_eq] at he
  rcases coinEdges_shape n "Inicio" e he with ⟨h1, -, -⟩
  have hC1 : ("C" : String).length = 1 := by decide
  have hS1 : ("S" : String).length = 1 := by decide
  rcases h1 with h1 | h1
  · rw [h1, String.length_append, hC1]
  · rw [h1, String.length_append, hS1]

/-- A walk in the coin tree strictly increases label length, so no walk
returns to its start. -/
lemma monedas_alcanza_len (n : ℕ) :
    ∀ (fuel : ℕ) (u v : String),
      alcanzaEn (crear_arbol_monedas n) fuel u v = true → u.length < v.length := by
  intro fuel
  induction fuel with
  | zero =>
    intro u v h
    simp [alcanzaEn] at h
  | succ f ih =>
    intro u v h
    simp only [alcanzaEn, List.any_eq_true] at h
    rcases h with ⟨t, ht, hor⟩
    rcases List.mem_map.mp ht with ⟨e, hef, rfl⟩
    have hef' := List.mem_filter.mp hef
    have hsrc : e.1 = u := by simpa using hef'.2
    have hlen : e.2.1.length = u.length + 1 := by
      rw [monedas_edge_len n e hef'.1, hsrc]
    simp only [Bool.or_eq_true, beq_iff_eq] at hor
    rcases hor with rfl | h2
    · omega
    · have := ih e.2.1 v h2
      omega

/-- The coin tree is acyclic (as checked by the analyzer). -/
lemma monedas_is_dag (n : ℕ) :
    is_directed_acyclic_graph (crear_arbol_monedas n) = true := by
  unfold is_directed_acyclic_graph
  rw [Bool.not_eq_true']
  rw [List.any_eq_false]
  intro u hu h
  exact absurd (monedas_alcanza_len n _ u u h) (lt_irrefl _)

/-- Key lengths in the coin tree: between 6 (the root `"Inicio"`) and
`6 + n` (the lowest level). -/
lemma monedas_key_len (n : ℕ) :
    ∀ u ∈ (crear_arbol_monedas n).keys, 6 ≤ u.length ∧ u.length ≤ 6 + n := by
  intro u hu
  have h6 : ("Inicio" : String).length = 6 := by decide
  rw [crear_arbol_monedas_eq] at hu
  simp only [Grafo.keys, List.map_cons, List.mem_cons] at hu
  rcases hu with rfl | hu
  · omega
  · rcases List.mem_map.mp hu with ⟨x, hx, rfl⟩
    rcases coinNodes_attrs _ _ _ _ x hx with ⟨w, -, hkey, -, -, hlen, -⟩
    rw [hkey, String.length_append, h6]
    omega

/-- Successors in the coin tree are themselves node keys. -/
lemma monedas_succ_mem (n : ℕ) :
    ∀ u v, v ∈ sucesores (crear_arbol_monedas n) u → v ∈ (crear_arbol_monedas n).keys := by
  intro u v hv
  unfold sucesores at hv
  rcases List.mem_map.mp hv with ⟨e, hef, rfl⟩
  have he := (List.mem_filter.mp hef).1
  have htgt : e.2.1 ∈ (crear_arbol_monedas n).edges.map (fun e => e.2.1) :=
    List.mem_map.mpr ⟨e, he, rfl⟩
  rw [crear_arbol_monedas_eq] at htgt ⊢
  simp only at htgt
  rw [coinEdges_tgts_eq_keys n 0 "Inicio" 1.0] at htgt
  simp only [Grafo.keys, List.map_cons, List.mem_cons]
  rcases List.mem_map.mp htgt with ⟨x, hx, hkey⟩
  exact Or.inr (List.mem_map.mpr ⟨x, hx, hkey⟩)

/-- Upper bound: from a key of length `L` at most `6 + n - L` edges can be
walked down the coin tree. -/
lemma monedas_longest_ub (n : ℕ) :
    ∀ (fuel : ℕ) (u : String), u ∈ (crear_arbol_monedas n).keys →
      longestFrom (crear_arbol_monedas n) fuel u + u.length ≤ 6 + n := by
  intro fuel
  induction fuel with
  | zero =>
    intro u hu
    have := (monedas_key_len n u hu).2
    simp only [longestFrom]
    omega
  | succ f ih =>
    intro u hu
    have hulen := (monedas_key_len n u hu).2
    simp only [longestFrom]
    have hB : ((sucesores (crear_arbol_monedas n) u).map
        (fun v => longestFrom (crear_arbol_monedas n) f v + 1)).foldr max 0
        ≤ 6 + n - u.length := by
      apply foldr_max_le
      intro x hx
      rcases List.mem_map.mp hx with ⟨v, hv, rfl⟩
      have hvkey := monedas_succ_mem n u v hv
      have hih := ih v hvkey
      have hvlen : v.length = u.length + 1 := by
        unfold sucesores at hv
        rcases List.mem_map.mp hv with ⟨e, hef, rfl⟩
        have hef' := List.mem_filter.mp hef
        have hsrc : e.1 = u := by simpa using hef'.2
        rw [monedas_edge_len n e hef'.1, hsrc]
      omega
    omega

/-- Lower bound: from a node at level `d` the walk of `n - d` "C"-steps
stays in the tree. -/
lemma monedas_longest_lb (n : ℕ) :
    ∀ (fuel : ℕ) (x : String × NodeData), x ∈ (crear_arbol_monedas n).nodes →
      n - x.2.nivel ≤ fuel →
      n - x.2.nivel ≤ longestFrom (crear_arbol_monedas n) fuel x.1 := by
  intro fuel
  induction fuel with
  | zero =>
    intro x hx hle
    simp only [longestFrom]
    omega
  | succ f ih =>
    intro x hx hle
    rcases le_or_lt n x.2.nivel with hge | hlt
    · have h0 : n - x.2.nivel = 0 := by omega
      rw [h0]
      exact Nat.zero_le _
    · have hchild : (x.1, x.1 ++ "C", "C (0.5)") ∈ (crear_arbol_monedas n).edges ∧
          ∃ d : NodeData, (x.1 ++ "C", d) ∈ (crear_arbol_monedas n).nodes ∧
            d.nivel = x.2.nivel + 1 := by
        rw [crear_arbol_monedas_eq] at hx ⊢
        rcases List.mem_cons.mp hx with hroot | hx'
        · constructor
          · show _ ∈ coinEdges n "Inicio"
            rw [hroot]
            exact coinEdges_headC_mem "Inicio" (by rw [hroot] at hlt; simpa using hlt)
          · refine ⟨⟨1.0 * 0.5, 0 + 1, none⟩, ?_, ?_⟩
            · rw [hroot]
              exact List.mem_cons_of_mem _
                (coinNodes_headC_mem 0 "Inicio" 1.0 (by rw [hroot] at hlt; simpa using hlt))
            · rw [hroot]
        · constructor
          · exact coinNodes_child_edge n 0 "Inicio" 1.0 x hx' (by omega)
          · rcases coinNodes_child_node n 0 "Inicio" 1.0 x hx' (by omega) with ⟨d, hd, hdn⟩
            exact ⟨d, List.mem_cons_of_mem _ hd, hdn⟩
      obtain ⟨hedge, d, hdmem, hdniv⟩ := hchild
      have hsucc : x.1 ++ "C" ∈ sucesores (crear_arbol_monedas n) x.1 := by
        unfold sucesores
        exact List.mem_map.mpr ⟨(x.1, x.1 ++ "C", "C (0.5)"),
          List.mem_filter.mpr ⟨hedge, by simp⟩, rfl⟩
      have hihd : n - d.nivel ≤ longestFrom (crear_arbol_monedas n) f (x.1 ++ "C") :=
        ih (x.1 ++ "C", d) hdmem (by simp only []; omega)
      have hmem2 : longestFrom (crear_arbol_monedas n) f (x.1 ++ "C") + 1
          ∈ (sucesores (crear_arbol_monedas n) x.1).map
            (fun v => longestFrom (crear_arbol_monedas n) f v + 1) :=
        List.mem_map.mpr ⟨x.1 ++ "C", hsucc, rfl⟩
      have hfold := le_foldr_max hmem2
      simp only [longestFrom]
      omega

/-- The analyzer's longest-path height of the coin tree is `n`. -/
lemma monedas_dagLPL (n : ℕ) :
    dag_longest_path_length (crear_arbol_monedas n) = n := by
  unfold dag_longest_path_length
  apply le_antisymm
  · apply foldr_max_le
    intro x hx
    rcases List.mem_map.mp hx with ⟨u, hu, rfl⟩
    have h := monedas_longest_ub n (crear_arbol_monedas n).nodes.length u hu
    have h6 := (monedas_key_len n u hu).1
    omega
  · have hroot : "Inicio" ∈ (crear_arbol_monedas n).keys := by
      rw [crear_arbol_monedas_eq]
      simp [Grafo.keys]
    have hnodes : (("Inicio", ⟨1.0, 0, none⟩) : String × NodeData)
        ∈ (crear_arbol_monedas n).nodes := by
      rw [crear_arbol_monedas_eq]
      simp
    have hV : n ≤ (crear_arbol_monedas n).nodes.length := by
      rw [crear_arbol_monedas_eq]
      simp only [List.length_cons]
      have h1 := coinNodes_length n 0 "Inicio" 1.0
      have h2 := Nat.lt_two_pow n
      have hp : (2 : ℕ) ^ (n + 1) = 2 ^ n + 2 ^ n := by ring
      omega
    have hlb := monedas_longest_lb n (crear_arbol_monedas n).nodes.length
      ("Inicio", ⟨1.0, 0, none⟩) hnodes (by simpa using hV)
    have hmem : longestFrom (crear_arbol_monedas n) (crear_arbol_monedas n).nodes.length "Inicio"
        ∈ (crear_arbol_monedas n).keys.map
          (longestFrom (crear_arbol_monedas n) (crear_arbol_monedas n).nodes.length) :=
      List.mem_map.mpr ⟨"Inicio", hroot, rfl⟩
    have hfold := le_foldr_max hmem
    simp only at hlb
    omega

/-- The maximum stored level in the coin tree is `n`. -/
lemma monedas_max_nivel (n : ℕ) :
    altura_por_niveles (crear_arbol_monedas n) = n := by
  unfold altura_por_niveles
  apply le_antisymm
  · apply foldr_max_le
    intro x hx
    rcases List.mem_map.mp hx with ⟨y, hy, rfl⟩
    rw [crear_arbol_monedas_eq] at hy
    rcases List.mem_cons.mp hy with rfl | hy
    · simp
    · rcases coinNodes_attrs _ _ _ _ y hy with ⟨w, -, -, -, hniv, hlen, -⟩
      simp only [hniv]
      omega
  · rcases Nat.eq_zero_or_pos n with rfl | hn
    · exact Nat.zero_le _
    · have hcount := coinNodes_countP_nivel n 0 "Inicio" 1.0 hn
      have hpos : 0 < (coinNodes n 0 "Inicio" 1.0).countP (fun x => x.2.nivel == 0 + n) := by
        rw [hcount]
        positivity
      rcases List.countP_pos_iff.mp hpos with ⟨x, hx, hxn⟩
      have hniv : x.2.nivel = n := by
        simpa using hxn
      have hmem : x.2.nivel ∈ (crear_arbol_monedas n).nodes.map (fun e => e.2.nivel) := by
        rw [crear_arbol_monedas_eq]
        exact List.mem_map.mpr ⟨x, List.mem_cons_of_mem _ hx, rfl⟩
      have hfold := le_foldr_max hmem
      omega

/-- The analyzer's height report for the coin tree. -/
lemma monedas_altura (n : ℕ) :
    (analizar_grafo (crear_arbol_monedas n) "moneda").altura = some n := by
  unfold analizar_grafo
  simp only [monedas_is_dag, if_true, monedas_dagLPL]

/-- No node of the coin tree carries a `suma` attribute. -/
lemma monedas_suma_none (n : ℕ) (u : String) :
    (nodeData (crear_arbol_monedas n) u).suma = none := by
  unfold nodeData
  rcases hfind : (crear_arbol_monedas n).nodes.find? (fun e => e.1 == u) with _ | e
  · rw [hfind]
    rfl
  · have hmem := List.mem_of_find?_eq_some hfind
    rw [crear_arbol_monedas_eq] at hmem
    rw [hfind]
    simp only [Option.map_some', Option.getD_some]
    rcases List.mem_cons.mp hmem with rfl | hmem'
    · rfl
    · rcases coinNodes_attrs _ _ _ _ e hmem' with ⟨-, -, -, -, -, -, hsuma⟩
      exact hsuma

/-- Folding the sum-dictionary update over leaves that all report sum 0
counts them all under the key 0. -/
lemma actualizar_ceros :
    ∀ (hs : List String) (f : String → ℕ), (∀ h ∈ hs, f h = 0) →
      ∀ j : ℕ,
      hs.foldl (fun d node => actualizar_sumas d (f node)) [(0, j)]
        = [(0, j + hs.length)] := by
  intro hs
  induction hs with
  | nil =>
    intro f hf j
    simp
  | cons a hs ih =>
    intro f hf j
    simp only [List.foldl_cons]
    rw [hf a (by simp)]
    have hstep : actualizar_sumas [(0, j)] 0 = [(0, j + 1)] := by
      simp [actualizar_sumas]
    rw [hstep, ih f (fun h hh => hf h (by simp [hh])) (j + 1)]
    simp only [List.cons.injEq, Prod.mk.injEq, List.length_cons, and_true, true_and]
    omega

lemma fold_sumas_ceros (hs : List String) (f : String → ℕ)
    (hf : ∀ h ∈ hs, f h = 0) (hne : hs ≠ []) :
    hs.foldl (fun d node => actualizar_sumas d (f node)) [] = [(0, hs.length)] := by
  rcases hs with _ | ⟨a, rest⟩
  · simp at hne
  · simp only [List.foldl_cons]
    rw [hf a (by simp)]
    have h0 : actualizar_sumas [] 0 = [(0, 1)] := by
      simp [actualizar_sumas]
    rw [h0, actualizar_ceros rest f (fun h hh => hf h (by simp [hh])) 1]
    simp only [List.cons.injEq, Prod.mk.injEq, List.length_cons, and_true, true_and]
    omega

/-- The `sumas` field of a dice-type report, unfolded. -/
lemma analizar_sumas_dado (G : Grafo) :
    (analizar_grafo G "dado").sumas
      = some ((ordenar ((G.keys.filter (fun u => out_degree G u == 0)).foldl
          (fun d node => actualizar_sumas d ((nodeData G node).suma.getD 0)) [])).map
        (fun e => (e.1, e.2,
          (e.2 : ℚ) / (((G.keys.filter (fun u => out_degree G u == 0)).length : ℕ) : ℚ)))) :=
  rfl

/-- A dice-type report on the `n`-flip coin tree (whose leaves lack `suma`)
does not fail: it counts all `2^n` leaves under sum 0, with probability 1. -/
lemma monedas_informe_sumas (n : ℕ) :
    (analizar_grafo (crear_arbol_monedas n) "dado").sumas = some [(0, 2 ^ n, 1)] := by
  have hlen := monedas_hojas_length n
  have hne : (crear_arbol_monedas n).keys.filter
      (fun u => out_degree (crear_arbol_monedas n) u == 0) ≠ [] := by
    intro h
    rw [h] at hlen
    simp at hlen
    exact absurd hlen.symm (by positivity)
  have hzero : ∀ h ∈ (crear_arbol_monedas n).keys.filter
      (fun u => out_degree (crear_arbol_monedas n) u == 0),
      (nodeData (crear_arbol_monedas n) h).suma.getD 0 = 0 := by
    intro h _
    rw [monedas_suma_none n h]
    rfl
  rw [analizar_sumas_dado]
  rw [fold_sumas_ceros _ _ hzero hne]
  show some [(0, _, _)] = _
  rw [hlen]
  have hdiv : (((2 : ℕ) ^ n : ℕ) : ℚ) / (((2 : ℕ) ^ n : ℕ) : ℚ) = 1 := by
    apply div_self
    positivity
  simp only [ordenar, insertar, List.map_cons, List.map_nil, Option.some.injEq,
    List.cons.injEq, Prod.mk.injEq, and_true, true_and]
  exact hdiv

/-- Claim C1: for every `n` the coin tree has exactly `2^n` out-degree-0
leaves, every leaf carries probability `0.5^n`, the leaf probabilities sum to
exactly 1, and `n = 0` yields a graph whose only node is the root (then the
single leaf). -/
theorem c1_hojas_monedas :
    (∀ n : ℕ,
      (analizar_grafo (crear_arbol_monedas n) "moneda").hojas.length = 2 ^ n ∧
      (crear_arbol_monedas n).nodes.Forall (fun x =>
        out_degree (crear_arbol_monedas n) x.1 = 0 → x.2.prob = (0.5 : ℚ) ^ n) ∧
      suma_prob_hojas (crear_arbol_monedas n) = 1) ∧
    (crear_arbol_monedas 0).nodes = [("Inicio", ⟨1.0, 0, none⟩)] := by
  refine ⟨fun n => ⟨?_, ?_, monedas_prob_hojas n⟩, ?_⟩
  · exact monedas_hojas_length n
  · rw [List.forall_iff_forall_mem]
    exact monedas_leaf_prob n
  · rw [crear_arbol_monedas_eq 0]
    rfl

/-- Claim C4 (amended): a dice-type report on a coin tree — all of whose
leaves lack the `suma` attribute — does not fail for any `n`: the analyzer
reads every missing sum as 0 and reports the single sum 0 carrying all `2^n`
leaves with empirical probability 1. -/
theorem c4_informe_sin_suma :
    ∀ n : ℕ, (analizar_grafo (crear_arbol_monedas n) "dado").sumas
      = some [(0, 2 ^ n, 1)] :=
  monedas_informe_sumas

/-- Claim C6: each graph either builder produces has exactly one node of
in-degree 0 — the root `"Inicio"`, stored with probability 1.0 and level 0 —
and every other node has exactly one incoming edge, so the graph is a tree. -/
theorem c6_raiz_unica :
    (∀ n : ℕ,
      (crear_arbol_monedas n).keys.filter
        (fun u => in_degree (crear_arbol_monedas n) u == 0) = ["Inicio"] ∧
      nodeData (crear_arbol_monedas n) "Inicio" = ⟨1.0, 0, none⟩ ∧
      (crear_arbol_monedas n).nodes.Forall (fun x =>
        x.1 = "Inicio" ∨ in_degree (crear_arbol_monedas n) x.1 = 1)) ∧
    (crear_arbol_dado.keys.filter
        (fun u => in_degree crear_arbol_dado u == 0) = ["Inicio"] ∧
      nodeData crear_arbol_dado "Inicio" = ⟨1.0, 0, none⟩ ∧
      crear_arbol_dado.nodes.Forall (fun x =>
        x.1 = "Inicio" ∨ in_degree crear_arbol_dado x.1 = 1)) := by
  refine ⟨fun n => ⟨?_, ?_, ?_⟩, ?_, ?_, ?_⟩
  · have hkeys : (crear_arbol_monedas n).keys
        = "Inicio" :: (coinNodes n 0 "Inicio" 1.0).map (fun x => x.1) := by
      rw [crear_arbol_monedas_eq]
      rfl
    rw [hkeys, List.filter_cons]
    have hroot := monedas_in_degree_root n
    have hrest : ((coinNodes n 0 "Inicio" 1.0).map (fun x => x.1)).filter
        (fun u => in_degree (crear_arbol_monedas n) u == 0) = [] := by
      rw [List.filter_eq_nil_iff]
      intro u hu
      rcases List.mem_map.mp hu with ⟨x, hx, hkey⟩
      rw [← hkey, monedas_in_degree_other n x hx]
      simp
    rw [hrest, hroot]
    simp
  · rw [crear_arbol_monedas_eq]
    rfl
  · rw [List.forall_iff_forall_mem]
    intro x hx
    have hx' := hx
    rw [crear_arbol_monedas_eq] at hx'
    rcases List.mem_cons.mp hx' with rfl | hmem
    · exact Or.inl rfl
    · exact Or.inr (monedas_in_degree_other n x hmem)
  · decide
  · rfl
  · decide

/-- Claim C7: every node's stored probability is the product of the branch
probabilities along its root path — `0.5 ^ nivel` in the coin tree and
`(1/6) ^ nivel` in the dice tree. -/
theorem c7_probabilidad_camino :
    (∀ n : ℕ, (crear_arbol_monedas n).nodes.Forall
      (fun x => x.2.prob = (0.5 : ℚ) ^ x.2.nivel)) ∧
    crear_arbol_dado.nodes.Forall (fun x => x.2.prob = (1/6 : ℚ) ^ x.2.nivel) := by
  constructor
  · intro n
    rw [List.forall_iff_forall_mem]
    exact monedas_prob_nivel n
  · have hpairs : (crear_arbol_dado.nodes.map (fun e => (e.2.prob, e.2.nivel))).Forall
        (fun q => q.1 = (1/6 : ℚ) ^ q.2) := by
      have h : crear_arbol_dado.nodes.map (fun e => (e.2.prob, e.2.nivel))
          = ((1.0 : ℚ), 0) :: (List.range' 1 6).foldr (fun _ acc =>
              ((1/6 : ℚ), 1) :: (List.replicate 6 (((1/6 : ℚ) * (1/6)), 2)) ++ acc) [] := rfl
      rw [h]
      norm_num [List.Forall, List.range', List.replicate]
    exact (@List.forall_map_iff _ _ crear_arbol_dado.nodes
      (fun q => q.1 = (1/6 : ℚ) ^ q.2) (fun e => (e.2.prob, e.2.nivel))).mp hpairs

/-- Claim C8: the height the analyzer computes (longest root-to-leaf path in
edges) is `n` for the coin tree with `n` flips and 2 for the dice tree. -/
theorem c8_altura_arboles :
    (∀ n : ℕ, (analizar_grafo (crear_arbol_monedas n) "moneda").altura = some n) ∧
    (analizar_grafo crear_arbol_dado "dado").altura = some 2 :=
  ⟨monedas_altura, by decide⟩

/-- Claim C9: on both builders' graphs, the analyzer's longest-path height
agrees with the maximum of the stored depth attributes. -/
theorem c9_altura_refinamiento :
    (∀ n : ℕ, (analizar_grafo (crear_arbol_monedas n) "moneda").altura
      = some (altura_por_niveles (crear_arbol_monedas n))) ∧
    (analizar_grafo crear_arbol_dado "dado").altura
      = some (altura_por_niveles crear_arbol_dado) := by
  constructor
  · intro n
    rw [monedas_altura n, monedas_max_nivel n]
  · decide
